import Mathlib

/-!
Shallow embedding of the git-plumbing reimplementation (object codec,
tree decoder, index codec, reference resolver) and proofs about it.

Bytes are modelled as `Nat` (each value intended `< 256`), byte streams as
`List Nat`.  Sequential file reads are modelled by functions consuming a
prefix of the stream; zlib (de)compression is external to the core logic,
so every reader operates directly on the decompressed stream and the
object store maps a hex hash (as ASCII bytes) to the decompressed bytes
of the stored object.  Rust `String` values are modelled by their byte
lists (all strings involved are ASCII).
-/

set_option maxRecDepth 100000

deriving instance DecidableEq for Except

/-- ASCII bytes of a string literal (all strings used are pure ASCII). -/
def ascii (s : String) : List Nat := s.data.map Char.toNat

/-- Error kinds of the embedded code (anyhow errors, plus `panicked` for a
Rust panic such as slicing `&hash[..2]` of a string shorter than 2). -/
inductive GitError where
  | notFound
  | formatError
  | validationError
  | ioError
  | panicked
  deriving DecidableEq, Repr

/-- Model of `BufRead::read_until(delim)`: the bytes read (delimiter
included when found, everything up to EOF otherwise) and the rest. -/
def readUntil (delim : Nat) : List Nat → List Nat × List Nat
  | [] => ([], [])
  | b :: bs =>
    if b = delim then ([b], bs)
    else
      let r := readUntil delim bs
      (b :: r.1, r.2)

/-- Model of `Read::read_exact` into an `n`-byte buffer: fails (I/O error)
when fewer than `n` bytes remain. -/
def readN (n : Nat) (s : List Nat) : Except GitError (List Nat × List Nat) :=
  if n ≤ s.length then .ok (s.take n, s.drop n) else .error .ioError

/-- Model of `reader.take(n).read_to_end`: reads up to `n` bytes, never fails. -/
def takeN (n : Nat) (s : List Nat) : List Nat × List Nat :=
  (s.take n, s.drop n)

/-- Big-endian value of a byte list (`u32::from_be_bytes` & friends). -/
def beVal (bs : List Nat) : Nat := bs.foldl (fun a b => a * 256 + b) 0

/-- `u32::to_be_bytes`: the four big-endian bytes of `n % 2^32`. -/
def be4 (n : Nat) : List Nat :=
  [n / 16777216 % 256, n / 65536 % 256, n / 256 % 256, n % 256]

/-- `u16::to_be_bytes`: the two big-endian bytes of `n % 2^16`. -/
def be2 (n : Nat) : List Nat := [n / 256 % 256, n % 256]

/-- `u64::to_be_bytes`: the eight big-endian bytes of `n % 2^64`. -/
def be8 (n : Nat) : List Nat :=
  [n / 72057594037927936 % 256, n / 281474976710656 % 256,
   n / 1099511627776 % 256, n / 4294967296 % 256,
   n / 16777216 % 256, n / 65536 % 256, n / 256 % 256, n % 256]

/-- The hex characters table `HEX_CHARS` of `utils/hex.rs`. -/
def hexChar (n : Nat) : Nat := (ascii "0123456789abcdef").getD n 0

/-- `hex::encode_in_place`: each byte becomes two lowercase hex characters. -/
def hexEncode (bs : List Nat) : List Nat :=
  bs.flatMap fun b => [hexChar (b / 16), hexChar (b % 16)]

/-! ## SHA-1 (the `sha1` crate as used by the code) -/

/-- Rotate a 32-bit word left by `k` (for `w < 2^32`, `k ≤ 32`). -/
def rotl32 (k w : Nat) : Nat := (w * 2 ^ k + w / 2 ^ (32 - k)) % 4294967296

/-- SHA-1 round function. -/
def sha1f (i b c d : Nat) : Nat :=
  if i < 20 then Nat.lor (Nat.land b c) (Nat.land (Nat.xor b 4294967295) d)
  else if i < 40 then Nat.xor b (Nat.xor c d)
  else if i < 60 then
    Nat.lor (Nat.lor (Nat.land b c) (Nat.land b d)) (Nat.land c d)
  else Nat.xor b (Nat.xor c d)

/-- SHA-1 round constants. -/
def sha1k (i : Nat) : Nat :=
  if i < 20 then 1518500249
  else if i < 40 then 1859775393
  else if i < 60 then 2400959708
  else 3395469782

/-- Four consecutive bytes become one big-endian 32-bit word. -/
def bytesToWords : List Nat → List Nat
  | a :: b :: c :: d :: rest => (((a * 256 + b) * 256 + c) * 256 + d) :: bytesToWords rest
  | _ => []

/-- SHA-1 message padding: `0x80`, zeros to 56 mod 64, 8-byte bit length. -/
def sha1pad (msg : List Nat) : List Nat :=
  msg ++ [128] ++ List.replicate ((119 - msg.length % 64) % 64) 0
      ++ be8 (8 * msg.length)

/-- Extend the 16 block words to the 80 schedule words. -/
def sha1schedule (block : List Nat) : List Nat :=
  (List.range 64).foldl
    (fun ws _ =>
      ws ++ [rotl32 1
        (Nat.xor (Nat.xor (ws.getD (ws.length - 3) 0) (ws.getD (ws.length - 8) 0))
                 (Nat.xor (ws.getD (ws.length - 14) 0) (ws.getD (ws.length - 16) 0)))])
    block

/-- One SHA-1 round: state is `(i, a, b, c, d, e)`. -/
def sha1round (st : Nat × Nat × Nat × Nat × Nat × Nat) (w : Nat) :
    Nat × Nat × Nat × Nat × Nat × Nat :=
  let i := st.1
  let a := st.2.1
  let b := st.2.2.1
  let c := st.2.2.2.1
  let d := st.2.2.2.2.1
  let e := st.2.2.2.2.2
  (i + 1, (rotl32 5 a + sha1f i b c d + e + sha1k i + w) % 4294967296,
   a, rotl32 30 b, c, d)

/-- Process one 64-byte block, updating the five-word chaining state. -/
def sha1block (h : Nat × Nat × Nat × Nat × Nat) (block : List Nat) :
    Nat × Nat × Nat × Nat × Nat :=
  let st := (sha1schedule (bytesToWords block)).foldl sha1round
    (0, h.1, h.2.1, h.2.2.1, h.2.2.2.1, h.2.2.2.2)
  ((h.1 + st.2.1) % 4294967296,
   (h.2.1 + st.2.2.1) % 4294967296,
   (h.2.2.1 + st.2.2.2.1) % 4294967296,
   (h.2.2.2.1 + st.2.2.2.2.1) % 4294967296,
   (h.2.2.2.2 + st.2.2.2.2.2) % 4294967296)

/-- Split a padded message into `n` blocks of 64 bytes. -/
def chunks64Go : Nat → List Nat → List (List Nat)
  | 0, _ => []
  | n + 1, l => l.take 64 :: chunks64Go n (l.drop 64)

/-- Split a byte list into 64-byte blocks. -/
def chunks64 (l : List Nat) : List (List Nat) := chunks64Go (l.length / 64) l

/-- The 20 digest bytes of SHA-1 of a byte message. -/
def sha1 (msg : List Nat) : List Nat :=
  let h := (chunks64 (sha1pad msg)).foldl sha1block
    (1732584193, 4023233417, 2562383102, 271733878, 3285377520)
  be4 h.1 ++ be4 h.2.1 ++ be4 h.2.2.1 ++ be4 h.2.2.2.1 ++ be4 h.2.2.2.2

example : sha1 (ascii "abc") =
    [0xa9, 0x99, 0x3e, 0x36, 0x47, 0x06, 0x81, 0x6a, 0xba, 0x3e,
     0x25, 0x71, 0x78, 0x50, 0xc2, 0x6c, 0x9c, 0xd0, 0xd8, 0x9d] := by decide

/-! ## Object codec (`utils/objects.rs`, `commands/hash_object.rs`,
`commands/cat_file.rs`) -/

/-- `ObjectType` of `utils/objects.rs`: the closed enumeration. -/
inductive ObjectType where
  | blob
  | tree
  | commit
  | tag
  deriving DecidableEq, Repr

/-- The ASCII token of an object type (its `Display` impl). -/
def ObjectType.token : ObjectType → List Nat
  | .blob => ascii "blob"
  | .tree => ascii "tree"
  | .commit => ascii "commit"
  | .tag => ascii "tag"

/-- `ObjectType::try_from(&[u8])`: the four known tokens, anything else an error. -/
def ObjectType.tryFrom (v : List Nat) : Except GitError ObjectType :=
  if v = ascii "blob" then .ok .blob
  else if v = ascii "tree" then .ok .tree
  else if v = ascii "commit" then .ok .commit
  else if v = ascii "tag" then .ok .tag
  else .error .formatError

/-- `ObjectHeader` of `utils/objects.rs`: views over the header bytes. -/
structure ObjectHeader where
  object_type : List Nat
  size : List Nat
  deriving DecidableEq, Repr

/-- `parse_header` of `utils/objects.rs`: `splitn(2, b' ')`, then the last
byte of the remainder is removed (`size.len().saturating_sub(1)`), whether
or not it is the NUL terminator. No space at all is an error. -/
def parse_header (header : List Nat) : Except GitError ObjectHeader :=
  if header.any (fun b => b = 32) then
    .ok { object_type := header.takeWhile (fun b => b ≠ 32)
          size := ((header.dropWhile (fun b => b ≠ 32)).drop 1).dropLast }
  else .error .formatError

/-- `ObjectHeader::parse_size`: `str::parse::<usize>` on the size bytes,
failing on an empty or non-digit string. -/
def parse_size (bs : List Nat) : Except GitError Nat :=
  if bs.isEmpty then .error .formatError
  else if bs.all (fun b => decide (48 ≤ b) && decide (b ≤ 57)) then
    .ok (bs.foldl (fun acc b => acc * 10 + (b - 48)) 0)
  else .error .formatError

/-- `read_object_type` of `cat_file.rs`, on the decompressed stream:
read until the first space, pop the trailing byte, validate the token
unless `allow_unknown_type`, and output the token bytes. -/
def read_object_type (s : List Nat) (allow_unknown_type : Bool) :
    Except GitError (List Nat) :=
  let buf := ((readUntil 32 s).1).dropLast
  if allow_unknown_type then .ok buf
  else
    match ObjectType.tryFrom buf with
    | .ok _ => .ok buf
    | .error e => .error e

/-- `read_object_size` of `cat_file.rs`, on the decompressed stream:
read the header up to NUL, parse it, optionally validate the type, and
output the header's raw size bytes (no content is read or validated). -/
def read_object_size (s : List Nat) (allow_unknown_type : Bool) :
    Except GitError (List Nat) := do
  let h ← parse_header (readUntil 0 s).1
  if !allow_unknown_type then
    let _ ← ObjectType.tryFrom h.object_type
  return h.size

/-- The object store: hex hash (ASCII bytes) ↦ decompressed object bytes.
A 40-hex-character key stands for the file
`<object_dir>/<hash[..2]>/<hash[2..]>`. -/
abbrev Store := List (List Nat × List Nat)

/-- `read_object_type(hash_str, false, ..)` as invoked from the tree
decoder: `get_object_path(hash, true)` panics when the hex string is
shorter than 2 characters (`&hash[..2]`), errors when the object is
absent, and otherwise reads the referenced object's type strictly. -/
def treeTypeLookup (store : Store) (key : List Nat) : Except GitError (List Nat) :=
  if key.length < 2 then .error .panicked
  else
    match store.lookup key with
    | none => .error .notFound
    | some s => read_object_type s false

/-- The entry loop of `read_tree_pretty` of `cat_file.rs`: per entry, read
the mode up to a space (empty ⇒ end of tree), the name up to a NUL, up to
20 raw hash bytes, count the bytes consumed, hex the hash, look up the
referenced object's type, and render
`mode ++ type ++ " " ++ hex ++ "\t" ++ name-without-NUL` (the mode bytes
still carry their trailing space). Fuel-driven so the definition
evaluates; each iteration consumes at least one byte, so `s.length + 1`
fuel always suffices. -/
def read_tree_entries (store : Store) : Nat → List Nat →
    Except GitError (List (List Nat) × Nat)
  | 0, _ => .error .ioError
  | fuel + 1, s =>
    let mode := (readUntil 32 s).1
    if mode = [] then .ok ([], 0)
    else
      let s1 := (readUntil 32 s).2
      let name := (readUntil 0 s1).1
      let s2 := (readUntil 0 s1).2
      let hash := (takeN 20 s2).1
      let s3 := (takeN 20 s2).2
      let consumed := mode.length + hash.length + name.length
      let hexh := hexEncode hash
      match treeTypeLookup store hexh with
      | .error e => .error e
      | .ok tok =>
        match read_tree_entries store fuel s3 with
        | .error e => .error e
        | .ok (entries, rest) =>
          .ok ((mode ++ tok ++ [32] ++ hexh ++ [9] ++ name.dropLast) :: entries,
               consumed + rest)

/-- `read_tree_pretty` of `cat_file.rs`: run the entry loop on the whole
decompressed content and join the rendered entries with `'\n'`. -/
def read_tree_pretty (store : Store) (s : List Nat) :
    Except GitError (List Nat × Nat) :=
  match read_tree_entries store (s.length + 1) s with
  | .error e => .error e
  | .ok (entries, n) => .ok (List.intercalate [10] entries, n)

/-- `read_object_pretty` of `cat_file.rs`, on the decompressed stream:
parse the header, always parse the type strictly, read the content (tree
decoding for trees, everything to EOF otherwise), check the declared size
against the consumed size, and output the content (nothing when
`exit_zero`, the `-e` existence check). -/
def read_object_pretty (store : Store) (s : List Nat) (exit_zero : Bool) :
    Except GitError (List Nat) := do
  let h ← parse_header (readUntil 0 s).1
  let rest := (readUntil 0 s).2
  let t ← ObjectType.tryFrom h.object_type
  let (buf, object_size) ←
    match t with
    | ObjectType.tree => read_tree_pretty store rest
    | _ => pure (rest, rest.length)
  let n ← parse_size h.size
  if n ≠ object_size then throw GitError.validationError
  if exit_zero then return []
  return buf

/-- The hashing part of `HashObjectArgs::run`: frame the content as
`"<type> <len>\0<content>"`, SHA-1 it, render the digest in hex. -/
def hash_object (t : ObjectType) (content : List Nat) : List Nat :=
  hexEncode (sha1 (t.token ++ [32] ++ ascii (toString content.length)
    ++ [0] ++ content))



/-! ## Index codec (`index.rs`) -/

/-- `MergeStatus` of `index.rs`. -/
inductive MergeStatus where
  | unmerged
  | base
  | ours
  | theirs
  deriving DecidableEq, Repr

/-- `MergeStatus::try_from(u8)`: 0–3, anything else an error. -/
def MergeStatus.tryFrom (v : Nat) : Except GitError MergeStatus :=
  if v = 0 then .ok .unmerged
  else if v = 1 then .ok .base
  else if v = 2 then .ok .ours
  else if v = 3 then .ok .theirs
  else .error .formatError

/-- `IndexEntry` of `index.rs` (`u32`/`u16` fields as `Nat`, the path as
its byte list). -/
structure IndexEntry where
  ctime_secs : Nat
  ctime_nanos : Nat
  mtime_secs : Nat
  mtime_nanos : Nat
  dev : Nat
  ino : Nat
  mode : Nat
  uid : Nat
  gid : Nat
  size : Nat
  assume_valid : Bool
  stage : MergeStatus
  sha1 : List Nat
  path : List Nat
  deriving DecidableEq, Repr

/-- `calc_null_padding` of `index.rs`, verbatim. -/
def calc_null_padding (path_len : Nat) : Nat := 8 - (6 + path_len) % 8

/-- The successive `write_all` buffers `write_git_index` emits for one
entry (lines 227–248 of `index.rs`): the nine `u32` fields, the `u16`
size, the 20 hash bytes, the flags pair — which only ever carries the
path length, `flags[0] = (len as u16 >> 8) as u8 & 0x0F`,
`flags[1] = len as u8` — two zero extended-flag bytes, the path bytes,
and the NUL padding. -/
def index_entry_chunks (e : IndexEntry) : List (List Nat) :=
  [be4 e.ctime_secs, be4 e.ctime_nanos, be4 e.mtime_secs, be4 e.mtime_nanos,
   be4 e.dev, be4 e.ino, be4 e.mode, be4 e.uid, be4 e.gid,
   be2 e.size, e.sha1,
   [e.path.length % 65536 / 256 % 16, e.path.length % 256],
   [0, 0], e.path, List.replicate (calc_null_padding e.path.length) 0]

/-- The bytes one entry contributes to the index file. -/
def encode_index_entry (e : IndexEntry) : List Nat :=
  (index_entry_chunks e).flatten

/-- Everything `write_git_index` writes before the trailing checksum:
`"DIRC"`, version 2, the entry count, then each entry's bytes. -/
def index_body (entries : List IndexEntry) : List Nat :=
  ascii "DIRC" ++ be4 2 ++ be4 entries.length
    ++ (entries.map encode_index_entry).flatten

/-- The full index file `write_git_index` produces: the body followed by
the SHA-1 of the file as written so far (`compute_sha1` re-reads the
synced file, then the digest is appended). -/
def write_git_index (entries : List IndexEntry) : List Nat :=
  index_body entries ++ sha1 (index_body entries)

/-- `read_u32_be` of `index.rs`. -/
def readU32 (s : List Nat) : Except GitError (Nat × List Nat) := do
  let (buf, s) ← readN 4 s
  return (beVal buf, s)

/-- `read_u16_be` of `index.rs`. -/
def readU16 (s : List Nat) : Except GitError (Nat × List Nat) := do
  let (buf, s) ← readN 2 s
  return (beVal buf, s)

/-- One iteration of the entry loop of `read_git_index` (lines 98–142 of
`index.rs`): the fixed fields, then the flags pair decoded as
`assume_valid = flags[0] >> 7 & 1`, `stage = flags[0] >> 4 & 3`,
`path_len = (flags[0] & 0x0F) << 8 | flags[1]`; two extended-flag bytes
and the NUL padding are skipped by seeking (which cannot fail). -/
def read_index_entry (s : List Nat) : Except GitError (IndexEntry × List Nat) := do
  let (ctimeS, s) ← readU32 s
  let (ctimeN, s) ← readU32 s
  let (mtimeS, s) ← readU32 s
  let (mtimeN, s) ← readU32 s
  let (dev, s) ← readU32 s
  let (ino, s) ← readU32 s
  let (mode, s) ← readU32 s
  let (uid, s) ← readU32 s
  let (gid, s) ← readU32 s
  let (size, s) ← readU16 s
  let (sha1b, s) ← readN 20 s
  let (flags, s) ← readN 2 s
  let f0 := flags.getD 0 0
  let f1 := flags.getD 1 0
  let stage ← MergeStatus.tryFrom (f0 / 16 % 4)
  let path_len := f0 % 16 * 256 + f1
  let s := s.drop 2
  let (path, s) ← readN path_len s
  let s := s.drop (calc_null_padding path_len)
  return ({ ctime_secs := ctimeS, ctime_nanos := ctimeN, mtime_secs := mtimeS,
            mtime_nanos := mtimeN, dev := dev, ino := ino, mode := mode,
            uid := uid, gid := gid, size := size,
            assume_valid := f0 / 128 % 2 = 1, stage := stage,
            sha1 := sha1b, path := path }, s)

/-- `entry_count` iterations of the entry loop. -/
def read_index_entries : Nat → List Nat →
    Except GitError (List IndexEntry × List Nat)
  | 0, s => .ok ([], s)
  | n + 1, s => do
    let (e, s) ← read_index_entry s
    let (es, s) ← read_index_entries n s
    return (e :: es, s)

/-- `read_git_index` of `index.rs`, on the index file's bytes: check the
`"DIRC"` signature and version 2, read the entry count, the entries, and
the 20 trailing checksum bytes (read but never verified). -/
def read_git_index (s : List Nat) : Except GitError (List IndexEntry) := do
  let (header, s) ← readN 12 s
  if header.take 4 ≠ ascii "DIRC" then throw GitError.formatError
  if beVal ((header.drop 4).take 4) ≠ 2 then throw GitError.formatError
  let count := beVal ((header.drop 8).take 4)
  let (entries, s) ← read_index_entries count s
  let (_checksum, _) ← readN 20 s
  return entries

/-! ## Filesystem-effect traces (for the write-atomicity property)

`write_git_index` talks to one file; its filesystem effects are the
sequence below.  A run that executes every step models a call that
returns `Ok`; a run cut off after `k` steps models a call that failed at
step `k + 1` (an I/O error from that `write_all`/`sync_all`).  The state
tracks whether the index file exists and its current content. -/

/-- One filesystem operation on the index file. -/
inductive FsOp where
  | create
  | writeAll : List Nat → FsOp
  | syncAll
  deriving DecidableEq, Repr

/-- The index file's state: does it exist, and with what content.
`File::create` truncates; `write_all` appends. -/
structure FsFile where
  present : Bool
  content : List Nat
  deriving DecidableEq, Repr

/-- Apply one operation. -/
def applyOp (f : FsFile) : FsOp → FsFile
  | .create => { present := true, content := [] }
  | .writeAll chunk => { f with content := f.content ++ chunk }
  | .syncAll => f

/-- Run a sequence of operations. -/
def runOps (ops : List FsOp) (f : FsFile) : FsFile := ops.foldl applyOp f

/-- The operations `write_git_index` performs on the index file, in
source order (lines 218–255 of `index.rs`): `File::create`, the header
writes, each entry's writes, `sync_all`, then the checksum write. -/
def index_write_ops (entries : List IndexEntry) : List FsOp :=
  [FsOp.create, FsOp.writeAll (ascii "DIRC"), FsOp.writeAll (be4 2),
   FsOp.writeAll (be4 entries.length)]
  ++ (entries.map (fun e => (index_entry_chunks e).map FsOp.writeAll)).flatten
  ++ [FsOp.syncAll, FsOp.writeAll (sha1 (index_body entries))]

/-! ## Reference resolver (`show_ref.rs`)

The refs on disk are modelled as an association list from a leaf file's
path relative to the git directory (e.g. `"refs/heads/main"`) to the
file's bytes, plus the optional content of `HEAD`.  The `BTreeMap<PathBuf, _>`
of `ShowRefArgs::run` is modelled as an association list kept sorted by
`PathBuf`'s ordering, which compares paths component by component
(components split at `'/'`, each compared bytewise). -/

/-- Split a byte list at `'/'` (47); mirrors `Path::components()` for the
clean relative paths the resolver produces. -/
def splitSlash : List Nat → List (List Nat)
  | [] => [[]]
  | b :: bs =>
    let r := splitSlash bs
    if b = 47 then [] :: r
    else (b :: r.headD []) :: r.tail

/-- Lexicographic strict order on lists over a strict element order. -/
def lexBool {α : Type} (lt : α → α → Bool) : List α → List α → Bool
  | _, [] => false
  | [], _ :: _ => true
  | a :: as, b :: bs =>
    if lt a b then true else if lt b a then false else lexBool lt as bs

/-- Bytewise (lexicographic) strict order on byte lists (`OsStr` order). -/
def bytesLt : List Nat → List Nat → Bool :=
  lexBool (fun a b => decide (a < b))

/-- Lexicographic strict order on component lists. -/
def compsLt : List (List Nat) → List (List Nat) → Bool :=
  lexBool bytesLt

/-- The components of a path key. -/
def pathComponents (p : String) : List (List Nat) := splitSlash (ascii p)

/-- `PathBuf`'s `Ord`: componentwise comparison. -/
def pathLt (a b : String) : Bool := compsLt (pathComponents a) (pathComponents b)

/-- Flat lexicographic (bytewise) order on the path keys themselves —
what the specification calls "sorted lexicographically by the path key". -/
def pathStrLt (a b : String) : Bool := bytesLt (ascii a) (ascii b)

/-- The sorted map of collected refs. -/
abbrev RefMap := List (String × List Nat)

/-- `BTreeMap::insert` on the sorted association list: on an equal key
the stored key is kept and the value replaced. -/
def insertRef (k : String) (v : List Nat) : RefMap → RefMap
  | [] => [(k, v)]
  | (k', v') :: rest =>
    if pathLt k k' then (k, v) :: (k', v') :: rest
    else if pathLt k' k then (k', v') :: insertRef k v rest
    else (k', v) :: rest

/-- Is `p` a file inside the directory subtree `dir`? -/
def underDir (dir p : String) : Bool :=
  List.isPrefixOf (ascii dir ++ [47]) (ascii p)

/-- `add_ref` of `show_ref.rs`: `read_exact` of 40 bytes (an I/O error on
a shorter file), then insert under the git-dir-relative path. -/
def add_ref (k : String) (c : List Nat) (m : RefMap) : Except GitError RefMap :=
  if c.length < 40 then .error .ioError else .ok (insertRef k (c.take 40) m)

/-- `read_refs` of `show_ref.rs`: every leaf file under `subdir` becomes
a ref; a missing directory contributes nothing. -/
def read_refs (repo : List (String × List Nat)) (subdir : String)
    (m : RefMap) : Except GitError RefMap :=
  (repo.filter fun pc => underDir subdir pc.1).foldlM
    (fun m pc => add_ref pc.1 pc.2 m) m

/-- `add_ref_if_exists` of `show_ref.rs`. -/
def add_ref_if_exists (repo : List (String × List Nat)) (p : String)
    (m : RefMap) : Except GitError RefMap :=
  match repo.lookup p with
  | none => .ok m
  | some c => add_ref p c m

/-- ASCII bytes back to a `String` (the resolver's paths are ASCII). -/
def strOfBytes (bs : List Nat) : String := String.mk (bs.map Char.ofNat)

/-- `read_head` of `show_ref.rs`: skip the 5-byte `"ref: "` prefix, pop
the trailing newline, reuse the hash when the target was already
collected, otherwise open the target file directly; a missing `HEAD` or
target is an error. -/
def read_head (repo : List (String × List Nat))
    (headContent : Option (List Nat)) (m : RefMap) : Except GitError RefMap :=
  match headContent with
  | none => .error .notFound
  | some hc =>
    let target := strOfBytes ((hc.drop 5).dropLast)
    match m.lookup target with
    | some hash => .ok (insertRef "HEAD" hash m)
    | none =>
      match repo.lookup target with
      | none => .error .notFound
      | some c =>
        if c.length < 40 then .error .ioError
        else .ok (insertRef "HEAD" (c.take 40) m)

/-- The collection phase of `ShowRefArgs::run` (lines 20–41 of
`show_ref.rs`): which directories are walked for which flags, the
optional `refs/stash` file, and the optional synthetic `HEAD` entry. -/
def collect_refs (repo : List (String × List Nat))
    (headContent : Option (List Nat)) (heads tags head : Bool) :
    Except GitError RefMap :=
  Except.bind (if heads then read_refs repo "refs/heads" [] else .ok []) fun m1 =>
  Except.bind (if tags then read_refs repo "refs/tags" m1 else .ok m1) fun m2 =>
  Except.bind
    (if !heads && !tags then
      Except.bind (read_refs repo "refs/heads" m2) fun m =>
      Except.bind (read_refs repo "refs/tags" m) fun m =>
      Except.bind (read_refs repo "refs/remotes" m) fun m =>
      add_ref_if_exists repo "refs/stash" m
    else .ok m2) fun m3 =>
  if head then read_head repo headContent m3 else .ok m3

/-! ## Basic stream lemmas -/

theorem readUntil_delim (d : Nat) (pre rest : List Nat) (h : d ∉ pre) :
    readUntil d (pre ++ d :: rest) = (pre ++ [d], rest) := by
  induction pre with
  | nil => simp [readUntil]
  | cons b bs ih =>
    simp only [List.mem_cons, not_or] at h
    have hb : ¬ b = d := fun hb => h.1 hb.symm
    simp [readUntil, hb, ih h.2]

theorem readUntil_eof (d : Nat) (s : List Nat) (h : d ∉ s) :
    readUntil d s = (s, []) := by
  induction s with
  | nil => simp [readUntil]
  | cons b bs ih =>
    simp only [List.mem_cons, not_or] at h
    have hb : ¬ b = d := fun hb => h.1 hb.symm
    simp [readUntil, hb, ih h.2]

theorem readUntil_fst_nil (d : Nat) (s : List Nat) :
    (readUntil d s).1 = [] ↔ s = [] := by
  cases s with
  | nil => simp [readUntil]
  | cons b bs =>
    simp only [readUntil]
    by_cases hb : b = d <;> simp [hb]

theorem readUntil_length (d : Nat) (s : List Nat) :
    (readUntil d s).1.length + (readUntil d s).2.length = s.length := by
  induction s with
  | nil => simp [readUntil]
  | cons b bs ih =>
    simp only [readUntil]
    by_cases hb : b = d <;> simp [hb] <;> omega

theorem readN_exact (n : Nat) (l r : List Nat) (h : l.length = n) :
    readN n (l ++ r) = .ok (l, r) := by
  subst h
  simp [readN, List.take_left, List.drop_left]

theorem beVal_be4 (n : Nat) : beVal (be4 n) = n % 4294967296 := by
  simp [beVal, be4]
  omega

theorem beVal_be2 (n : Nat) : beVal (be2 n) = n % 65536 := by
  simp [beVal, be2]
  omega

theorem readU32_be4 (v : Nat) (r : List Nat) :
    readU32 (be4 v ++ r) = .ok (v % 4294967296, r) := by
  have h : readN 4 (be4 v ++ r) = .ok (be4 v, r) := readN_exact 4 (be4 v) r (by simp [be4])
  simp [readU32, h, beVal_be4]

theorem readU16_be2 (v : Nat) (r : List Nat) :
    readU16 (be2 v ++ r) = .ok (v % 65536, r) := by
  have h : readN 2 (be2 v ++ r) = .ok (be2 v, r) := readN_exact 2 (be2 v) r (by simp [be2])
  simp [readU16, h, beVal_be2]

theorem hexEncode_length (bs : List Nat) : (hexEncode bs).length = 2 * bs.length := by
  induction bs with
  | nil => simp [hexEncode]
  | cons b r ih =>
    simp only [hexEncode, List.flatMap_cons] at ih ⊢
    simp at ih ⊢
    omega

theorem sha1_length (msg : List Nat) : (sha1 msg).length = 20 := by
  simp [sha1, be4]

theorem readN_two (a b : Nat) (r : List Nat) :
    readN 2 (a :: b :: r) = .ok ([a, b], r) := by
  simp [readN]

theorem drop_replicate_append (k x : Nat) (r : List Nat) :
    (List.replicate k x ++ r).drop k = r := by
  have h := List.drop_left (List.replicate k x) r
  simp only [List.length_replicate] at h
  exact h

/-- Ranges the Rust types enforce on an `IndexEntry`'s fields, plus the
12-bit bound on the path length required by the flags encoding. -/
def IndexEntryWf (e : IndexEntry) : Prop :=
  e.ctime_secs < 4294967296 ∧ e.ctime_nanos < 4294967296 ∧
  e.mtime_secs < 4294967296 ∧ e.mtime_nanos < 4294967296 ∧
  e.dev < 4294967296 ∧ e.ino < 4294967296 ∧ e.mode < 4294967296 ∧
  e.uid < 4294967296 ∧ e.gid < 4294967296 ∧ e.size < 65536 ∧
  e.sha1.length = 20 ∧ e.path.length < 4096

instance (e : IndexEntry) : Decidable (IndexEntryWf e) := by
  unfold IndexEntryWf
  infer_instance

/-- Decoding one encoded entry: the writer's flag bytes carry only the
path length, so the decoded entry always comes back with
`assume_valid = false` and `stage = Unmerged`, every other field intact. -/
theorem read_index_entry_encode (e : IndexEntry) (r : List Nat)
    (hw : IndexEntryWf e) :
    read_index_entry (encode_index_entry e ++ r) =
      .ok ({ e with assume_valid := false, stage := .unmerged }, r) := by
  obtain ⟨h1, h2, h3, h4, h5, h6, h7, h8, h9, h10, h11, h12⟩ := hw
  have hstage : e.path.length % 65536 / 256 % 16 / 16 % 4 = 0 := by omega
  have hav : e.path.length % 65536 / 256 % 16 / 128 % 2 = 0 := by omega
  have hlen : e.path.length % 65536 / 256 % 16 % 16 * 256 + e.path.length % 256
      = e.path.length := by omega
  simp only [encode_index_entry, index_entry_chunks, List.flatten_cons,
    List.flatten_nil, List.append_nil, List.append_assoc, List.cons_append,
    List.nil_append]
  simp only [read_index_entry, bind, Except.bind, readU32_be4, readU16_be2,
    readN_two, readN_exact, h11, List.getD_cons_zero,
    List.getD_cons_succ, List.drop_succ_cons, List.drop_zero,
    hstage, hav, hlen, MergeStatus.tryFrom, drop_replicate_append,
    Nat.mod_eq_of_lt h1, Nat.mod_eq_of_lt h2, Nat.mod_eq_of_lt h3,
    Nat.mod_eq_of_lt h4, Nat.mod_eq_of_lt h5, Nat.mod_eq_of_lt h6,
    Nat.mod_eq_of_lt h7, Nat.mod_eq_of_lt h8, Nat.mod_eq_of_lt h9,
    Nat.mod_eq_of_lt h10]
  rfl

theorem map_eq_self_of {α : Type} (l : List α) (f : α → α)
    (h : ∀ x ∈ l, f x = x) : l.map f = l := by
  induction l with
  | nil => rfl
  | cons a as ih =>
    have := h a (List.mem_cons_self a as)
    simp [this, ih fun x hx => h x (List.mem_cons_of_mem a hx)]

theorem readN_all (n : Nat) (l : List Nat) (h : l.length = n) :
    readN n l = .ok (l, []) := by
  subst h
  simp [readN]

theorem read_index_entries_encode (entries : List IndexEntry) (tail : List Nat)
    (h : ∀ e ∈ entries, IndexEntryWf e) :
    read_index_entries entries.length
      ((entries.map encode_index_entry).flatten ++ tail) =
      .ok (entries.map
        (fun e => { e with assume_valid := false, stage := .unmerged }), tail) := by
  induction entries with
  | nil => simp [read_index_entries]
  | cons e es ih =>
    have he := h e (List.mem_cons_self e es)
    have hes := ih fun x hx => h x (List.mem_cons_of_mem e hx)
    simp only [List.map_cons, List.flatten_cons, List.length_cons, List.append_assoc]
    simp only [read_index_entries, bind, Except.bind, read_index_entry_encode e _ he, hes]
    rfl

theorem encode_index_entry_length (e : IndexEntry) (h : e.sha1.length = 20) :
    (encode_index_entry e).length =
      62 + e.path.length + calc_null_padding e.path.length := by
  simp [encode_index_entry, index_entry_chunks, be4, be2, h]
  omega

theorem index_roundtrip_core (entries : List IndexEntry)
    (hwf : ∀ e ∈ entries, IndexEntryWf e)
    (hdef : ∀ e ∈ entries, e.assume_valid = false ∧ e.stage = .unmerged)
    (hn : entries.length < 4294967296) :
    read_git_index (write_git_index entries) = .ok entries := by
  have hDlen : (ascii "DIRC").length = 4 := rfl
  have h12 : (ascii "DIRC" ++ be4 2 ++ be4 entries.length).length = 12 := by
    simp [hDlen, be4]
  have hsplit : write_git_index entries =
      (ascii "DIRC" ++ be4 2 ++ be4 entries.length) ++
        ((entries.map encode_index_entry).flatten ++ sha1 (index_body entries)) := by
    simp [write_git_index, index_body, List.append_assoc]
  have htake : (ascii "DIRC" ++ be4 2 ++ be4 entries.length).take 4 = ascii "DIRC" := by
    rw [List.append_assoc]
    exact List.take_left' hDlen
  have hdrop4 : (ascii "DIRC" ++ be4 2 ++ be4 entries.length).drop 4 =
      be4 2 ++ be4 entries.length := by
    rw [List.append_assoc]
    exact List.drop_left' hDlen
  have hver : ((ascii "DIRC" ++ be4 2 ++ be4 entries.length).drop 4).take 4 = be4 2 := by
    rw [hdrop4]
    exact List.take_left' (by simp [be4])
  have hcnt : ((ascii "DIRC" ++ be4 2 ++ be4 entries.length).drop 8).take 4 =
      be4 entries.length := by
    have : (ascii "DIRC" ++ be4 2 ++ be4 entries.length).drop 8 = be4 entries.length :=
      List.drop_left' (by simp [hDlen, be4])
    rw [this]
    simp [be4]
  have hmap : entries.map
      (fun e => { e with assume_valid := false, stage := MergeStatus.unmerged }) = entries :=
    map_eq_self_of _ _ fun e he => by
      rw [← (hdef e he).1, ← (hdef e he).2]
  rw [hsplit]
  simp only [read_git_index, bind, Except.bind, readN_exact _ _ _ h12,
    htake, hver, hcnt, beVal_be4, Nat.mod_eq_of_lt hn, ne_eq,
    read_index_entries_encode entries _ hwf, hmap,
    readN_all _ _ (sha1_length (index_body entries))]
  rfl

theorem readN_ok_length (n : Nat) (s l r : List Nat)
    (h : readN n s = .ok (l, r)) : l.length = n := by
  unfold readN at h
  split at h
  · simp only [Except.ok.injEq, Prod.mk.injEq] at h
    obtain ⟨hl, _⟩ := h
    subst hl
    simp only [List.length_take]
    omega
  · cases h

/-- A concrete index file whose single entry carries the big-endian flags
word `0x2005`: bit 13 set, path length 5. -/
def c1file : List Nat :=
  ascii "DIRC" ++ be4 2 ++ be4 1
  ++ be4 1 ++ be4 2 ++ be4 3 ++ be4 4 ++ be4 5 ++ be4 6 ++ be4 7 ++ be4 8 ++ be4 9
  ++ be2 10 ++ List.replicate 20 0xab
  ++ [0x20, 0x05] ++ [0, 0] ++ ascii "a.txt" ++ List.replicate 5 0
  ++ List.replicate 20 0

/-- The entry `c1file` decodes to. -/
def c1entryDecoded : IndexEntry :=
  { ctime_secs := 1, ctime_nanos := 2, mtime_secs := 3, mtime_nanos := 4,
    dev := 5, ino := 6, mode := 7, uid := 8, gid := 9, size := 10,
    assume_valid := false, stage := .ours,
    sha1 := List.replicate 20 0xab, path := ascii "a.txt" }

/-- C1, counterexample: for the flags word `0x2005` the decoder
(`flags[0] >> 4 & 3`) yields stage `Ours`, but bits 14–13 of the word
have value 1, whose stage reading would be `Base`: the decoded merge
stage is not the value of bits 14–13 of the big-endian flags word. -/
theorem c1_stage_bits_counterexample :
    (read_git_index c1file).map (fun es => es.map IndexEntry.stage) =
      .ok [MergeStatus.ours] ∧
    beVal [0x20, 0x05] / 8192 % 4 = 1 ∧
    MergeStatus.tryFrom 1 = .ok MergeStatus.base ∧
    MergeStatus.ours ≠ MergeStatus.base := by decide

/-- C1, amended: decoding an index entry reads bit 15 of the big-endian
flags word as assume-valid, bits 13–12 (not 14–13) as the merge stage,
and bits 11–0 (not 12–0) as the path length. -/
theorem c1_flags_decode (a1 a2 a3 a4 a5 a6 a7 a8 a9 sz : Nat) (sha : List Nat)
    (f0 f1 x1 x2 : Nat) (tail : List Nat) (e : IndexEntry) (rest : List Nat)
    (hsha : sha.length = 20) (_hf0 : f0 < 256) (hf1 : f1 < 256)
    (hok : read_index_entry
      (be4 a1 ++ be4 a2 ++ be4 a3 ++ be4 a4 ++ be4 a5 ++ be4 a6 ++ be4 a7
        ++ be4 a8 ++ be4 a9 ++ be2 sz ++ sha ++ f0 :: f1 :: x1 :: x2 :: tail)
      = .ok (e, rest)) :
    MergeStatus.tryFrom ((f0 * 256 + f1) / 4096 % 4) = .ok e.stage ∧
    e.assume_valid = decide ((f0 * 256 + f1) / 32768 % 2 = 1) ∧
    e.path.length = (f0 * 256 + f1) % 4096 := by
  simp only [List.append_assoc, List.cons_append] at hok
  simp only [read_index_entry, bind, Except.bind, readU32_be4, readU16_be2,
    readN_exact, hsha, readN_two, List.getD_cons_zero, List.getD_cons_succ,
    List.drop_succ_cons, List.drop_zero] at hok
  cases hst : MergeStatus.tryFrom (f0 / 16 % 4) with
  | error err => rw [hst] at hok; cases hok
  | ok m =>
    rw [hst] at hok
    cases hpath : readN (f0 % 16 * 256 + f1) tail with
    | error err => rw [hpath] at hok; cases hok
    | ok pr =>
      rw [hpath] at hok
      simp only [pure, Except.pure, Except.ok.injEq, Prod.mk.injEq] at hok
      obtain ⟨he, _⟩ := hok
      subst he
      refine ⟨?_, ?_, ?_⟩
      · have harg : (f0 * 256 + f1) / 4096 % 4 = f0 / 16 % 4 := by omega
        rw [harg]
        exact hst
      · have hbit : (f0 * 256 + f1) / 32768 = f0 / 128 := by omega
        simp only [hbit]
      · have hlen := readN_ok_length _ _ _ _ hpath
        simp only [hlen]
        omega

/-- The entry part of `c1file`, as `c1_flags_decode` sees it. -/
theorem c1_flags_decode_witness :
    MergeStatus.tryFrom ((0x20 * 256 + 0x05) / 4096 % 4) = .ok c1entryDecoded.stage ∧
    c1entryDecoded.assume_valid = decide ((0x20 * 256 + 0x05) / 32768 % 2 = 1) ∧
    c1entryDecoded.path.length = (0x20 * 256 + 0x05) % 4096 :=
  c1_flags_decode 1 2 3 4 5 6 7 8 9 10 (List.replicate 20 0xab) 0x20 0x05 0 0
    (ascii "a.txt" ++ List.replicate 5 0) c1entryDecoded []
    (by decide) (by decide) (by decide) (by decide)

/-- An entry exactly as the writer itself builds one (`assume_valid`
false, stage `Unmerged`). -/
def c2entryDefault : IndexEntry :=
  { ctime_secs := 1, ctime_nanos := 2, mtime_secs := 3, mtime_nanos := 4,
    dev := 5, ino := 6, mode := 33188, uid := 1000, gid := 1000, size := 10,
    assume_valid := false, stage := .unmerged,
    sha1 := List.replicate 20 0xab, path := ascii "a.txt" }

/-- The same entry with a non-default merge stage and assume-valid flag. -/
def c2entryStaged : IndexEntry :=
  { c2entryDefault with stage := .ours, assume_valid := true }

/-- C2, counterexample: the encoder never serializes the stage or the
assume-valid flag (the flags bytes carry only the path length), so
encoding a list containing an entry with stage `Ours` and assume-valid
set and decoding it back does not return the original list: the fields
come back `Unmerged` / false. -/
theorem c2_roundtrip_counterexample :
    read_git_index (write_git_index [c2entryStaged]) = .ok [c2entryDefault] ∧
    read_git_index (write_git_index [c2entryStaged]) ≠ .ok [c2entryStaged] ∧
    c2entryStaged.stage = MergeStatus.ours ∧
    c2entryDefault.stage = MergeStatus.unmerged := by decide

/-- C2, amended: for entries as the writer constructs them (assume-valid
false, stage `Unmerged`, path shorter than 4096 bytes, fields in their
Rust integer ranges), encoding then decoding returns the list unchanged
in every field, and every encoded entry's byte length (fixed block +
path + NUL padding) is a multiple of 8. -/
theorem c2_index_roundtrip (entries : List IndexEntry)
    (hwf : ∀ e ∈ entries, IndexEntryWf e)
    (hdef : ∀ e ∈ entries, e.assume_valid = false ∧ e.stage = .unmerged)
    (hn : entries.length < 4294967296) :
    read_git_index (write_git_index entries) = .ok entries ∧
      ∀ e ∈ entries, (encode_index_entry e).length % 8 = 0 := by
  refine ⟨index_roundtrip_core entries hwf hdef hn, fun e he => ?_⟩
  obtain ⟨-, -, -, -, -, -, -, -, -, -, h11, -⟩ := hwf e he
  rw [encode_index_entry_length e h11]
  unfold calc_null_padding
  omega

/-- The round trip at a concrete one-entry list. -/
theorem c2_index_roundtrip_witness :
    read_git_index (write_git_index [c2entryDefault]) = .ok [c2entryDefault] ∧
      ∀ e ∈ [c2entryDefault], (encode_index_entry e).length % 8 = 0 :=
  c2_index_roundtrip [c2entryDefault] (by decide) (by decide) (by decide)

theorem runOps_append (a b : List FsOp) (f : FsFile) :
    runOps (a ++ b) f = runOps b (runOps a f) := by
  simp [runOps, List.foldl_append]

theorem runOps_writeAll (chunks : List (List Nat)) (f : FsFile) :
    runOps (chunks.map FsOp.writeAll) f =
      ⟨f.present, f.content ++ chunks.flatten⟩ := by
  induction chunks generalizing f with
  | nil => simp [runOps]
  | cons c cs ih =>
    simp only [List.map_cons, List.flatten_cons, runOps, List.foldl_cons]
    have := ih ⟨f.present, f.content ++ c⟩
    simp only [runOps] at this
    simp [applyOp, this]

theorem runOps_entry_writes (entries : List IndexEntry) (f : FsFile) :
    runOps ((entries.map fun e =>
        (index_entry_chunks e).map FsOp.writeAll).flatten) f =
      ⟨f.present, f.content ++ (entries.map encode_index_entry).flatten⟩ := by
  induction entries generalizing f with
  | nil => simp [runOps]
  | cons e es ih =>
    simp only [List.map_cons, List.flatten_cons]
    rw [runOps_append, runOps_writeAll, ih]
    simp [encode_index_entry]

/-- C3, amended (success half): a call that executes every step leaves
the index file present with exactly the encoded index bytes — a
successful write is complete. -/
theorem c3_success_full_write (entries : List IndexEntry) :
    runOps (index_write_ops entries) ⟨false, []⟩ =
      ⟨true, write_git_index entries⟩ := by
  simp only [index_write_ops]
  rw [runOps_append, runOps_append]
  have h1 : runOps [FsOp.create, FsOp.writeAll (ascii "DIRC"), FsOp.writeAll (be4 2),
      FsOp.writeAll (be4 entries.length)] ⟨false, []⟩ =
      ⟨true, ascii "DIRC" ++ be4 2 ++ be4 entries.length⟩ := by
    simp [runOps, applyOp]
  rw [h1, runOps_entry_writes]
  simp [runOps, applyOp, write_git_index, index_body]

/-- C3, counterexample: cutting the run after the very first step
(`File::create`) models a call that fails on its first `write_all`; the
index file already exists (created and truncated) even though the call
did not complete and nothing near the full output was written — the
"fails before any file is created" guarantee does not hold. -/
theorem c3_partial_counterexample :
    1 < (index_write_ops []).length ∧
    (runOps ((index_write_ops []).take 1) ⟨false, []⟩).present = true ∧
    (runOps ((index_write_ops []).take 1) ⟨false, []⟩).content ≠
      write_git_index [] := by decide

/-- The decompressed bytes of the stored `"Hello, World!"` blob object. -/
def helloBlobObject : List Nat := ascii "blob 13" ++ [0] ++ ascii "Hello, World!"

/-- C4: hashing `"Hello, World!"` as a blob yields
`b45ef6fec89518d314f546fd6c3025367b721684`, and reads of the stored
object return type `"blob"`, size `"13"`, and content `"Hello, World!"`. -/
theorem c4_hello_world_blob :
    hash_object ObjectType.blob (ascii "Hello, World!") =
      ascii "b45ef6fec89518d314f546fd6c3025367b721684" ∧
    read_object_type helloBlobObject false = .ok (ascii "blob") ∧
    read_object_size helloBlobObject false = .ok (ascii "13") ∧
    read_object_pretty [] helloBlobObject false = .ok (ascii "Hello, World!") := by
  decide

theorem takeWhile_until_space (tok rest : List Nat) (h : 32 ∉ tok) :
    (tok ++ 32 :: rest).takeWhile (fun b => b ≠ 32) = tok := by
  induction tok with
  | nil => simp [List.takeWhile]
  | cons b bs ih =>
    simp only [List.mem_cons, not_or] at h
    have hb : ¬ b = 32 := fun hb => h.1 hb.symm
    have ih2 := ih h.2
    simp only [ne_eq, decide_not] at ih2 ⊢
    simp [hb, ih2]

theorem dropWhile_until_space (tok rest : List Nat) (h : 32 ∉ tok) :
    (tok ++ 32 :: rest).dropWhile (fun b => b ≠ 32) = 32 :: rest := by
  induction tok with
  | nil => simp [List.dropWhile]
  | cons b bs ih =>
    simp only [List.mem_cons, not_or] at h
    have hb : ¬ b = 32 := fun hb => h.1 hb.symm
    have ih2 := ih h.2
    simp only [ne_eq, decide_not] at ih2 ⊢
    simp [hb, ih2]

/-- `parse_header` on a header of shape `<token> ' ' <rest>`: the size
view is `rest` minus its last byte, whatever that byte is. -/
theorem parse_header_canonical (tok rest : List Nat) (h32 : 32 ∉ tok) :
    parse_header (tok ++ 32 :: rest) = .ok ⟨tok, rest.dropLast⟩ := by
  have hany : (tok ++ 32 :: rest).any (fun b => b = 32) = true := by
    simp [List.any_append, List.any_cons]
  have ht := takeWhile_until_space tok rest h32
  have hd := dropWhile_until_space tok rest h32
  simp only [ne_eq, decide_not] at ht hd
  simp [parse_header, hany, ht, hd]

theorem readUntil0_header (tok sizeB content : List Nat)
    (h0 : 0 ∉ tok) (hs0 : 0 ∉ sizeB) :
    readUntil 0 (tok ++ 32 :: (sizeB ++ 0 :: content)) =
      ((tok ++ 32 :: sizeB) ++ [0], content) := by
  have hsh : tok ++ 32 :: (sizeB ++ 0 :: content) =
      (tok ++ 32 :: sizeB) ++ 0 :: content := by simp
  rw [hsh]
  apply readUntil_delim
  simp only [List.mem_append, List.mem_cons, not_or]
  exact ⟨h0, by omega, hs0⟩

/-- C9: `parse_header` unconditionally drops the last byte after the
first space: on a well-formed `"<type> <digits>\0"` header the size view
is exactly `<digits>`, but on `"blob 13"` (no NUL) parsing still
succeeds, with the final digit silently removed — the size view is
`"1"`, which parses as the number 1. -/
theorem c9_parse_header_drops_last_byte :
    (∀ tok digits : List Nat, 32 ∉ tok →
      parse_header (tok ++ 32 :: (digits ++ [0])) =
        .ok { object_type := tok, size := digits }) ∧
    parse_header (ascii "blob 13") =
      .ok { object_type := ascii "blob", size := ascii "1" } ∧
    parse_size (ascii "1") = .ok 1 := by
  refine ⟨fun tok digits htok => ?_, by decide, by decide⟩
  rw [parse_header_canonical tok (digits ++ [0]) htok]
  simp

/-- C7: for a stored object whose header token is not one of the four
known tokens, the type read and the size read fail when the lenient flag
is unset and succeed when it is set, returning the literal token,
respectively the declared size bytes, unmodified. -/
theorem c7_unknown_type_gating (tok sizeB content : List Nat)
    (h32 : 32 ∉ tok) (h0 : 0 ∉ tok) (hs0 : 0 ∉ sizeB)
    (hunk : ObjectType.tryFrom tok = .error .formatError) :
    read_object_type (tok ++ 32 :: (sizeB ++ 0 :: content)) false =
      .error .formatError ∧
    read_object_size (tok ++ 32 :: (sizeB ++ 0 :: content)) false =
      .error .formatError ∧
    read_object_type (tok ++ 32 :: (sizeB ++ 0 :: content)) true = .ok tok ∧
    read_object_size (tok ++ 32 :: (sizeB ++ 0 :: content)) true = .ok sizeB := by
  have htype : (readUntil 32 (tok ++ 32 :: (sizeB ++ 0 :: content))).1.dropLast = tok := by
    rw [readUntil_delim 32 tok _ h32]
    simp
  have hhdr : parse_header (readUntil 0 (tok ++ 32 :: (sizeB ++ 0 :: content))).1 =
      .ok ⟨tok, sizeB⟩ := by
    rw [readUntil0_header tok sizeB content h0 hs0]
    have : (tok ++ 32 :: sizeB) ++ [0] = tok ++ 32 :: (sizeB ++ [0]) := by simp
    rw [this, parse_header_canonical tok _ h32]
    simp
  refine ⟨?_, ?_, ?_, ?_⟩
  · simp [read_object_type, htype, hunk]
  · simp [read_object_size, bind, Except.bind, hhdr, hunk]
  · simp [read_object_type, htype]
  · simp only [read_object_size, bind, Except.bind, hhdr]
    rfl

/-- The gating at a concrete `"unknown 13\0Hello, World!"` object. -/
theorem c7_unknown_type_gating_witness :
    read_object_type (ascii "unknown" ++ 32 :: (ascii "13" ++ 0 :: ascii "Hello, World!"))
      false = .error .formatError ∧
    read_object_size (ascii "unknown" ++ 32 :: (ascii "13" ++ 0 :: ascii "Hello, World!"))
      false = .error .formatError ∧
    read_object_type (ascii "unknown" ++ 32 :: (ascii "13" ++ 0 :: ascii "Hello, World!"))
      true = .ok (ascii "unknown") ∧
    read_object_size (ascii "unknown" ++ 32 :: (ascii "13" ++ 0 :: ascii "Hello, World!"))
      true = .ok (ascii "13") :=
  c7_unknown_type_gating (ascii "unknown") (ascii "13") (ascii "Hello, World!")
    (by decide) (by decide) (by decide) (by decide)

/-- Did the call fail (either an `anyhow` error or a panic)? -/
def isError {ε α : Type} : Except ε α → Bool
  | .error _ => true
  | .ok _ => false

theorem read_tree_entries_consumed (store : Store) (fuel : Nat) :
    ∀ (s : List Nat) (out : List (List Nat) × Nat),
      read_tree_entries store fuel s = .ok out → out.2 = s.length := by
  induction fuel with
  | zero => intro s out h; cases h
  | succ fuel ih =>
    intro s out h
    simp only [read_tree_entries, takeN] at h
    by_cases hm : (readUntil 32 s).1 = []
    · rw [if_pos hm] at h
      have hs : s = [] := (readUntil_fst_nil 32 s).mp hm
      cases h
      simp [hs]
    · rw [if_neg hm] at h
      cases hl : treeTypeLookup store
          (hexEncode ((readUntil 0 (readUntil 32 s).2).2.take 20)) with
      | error err => rw [hl] at h; cases h
      | ok tok =>
        rw [hl] at h
        cases hr : read_tree_entries store fuel
            ((readUntil 0 (readUntil 32 s).2).2.drop 20) with
        | error err => rw [hr] at h; cases h
        | ok pr =>
          rw [hr] at h
          cases h
          have h2 := ih _ _ hr
          have hu1 := readUntil_length 32 s
          have hu2 := readUntil_length 0 (readUntil 32 s).2
          simp only [List.length_drop] at h2
          simp only [List.length_take]
          omega

theorem read_tree_pretty_consumed (store : Store) (s buf : List Nat) (m : Nat)
    (h : read_tree_pretty store s = .ok (buf, m)) : m = s.length := by
  unfold read_tree_pretty at h
  cases hr : read_tree_entries store (s.length + 1) s with
  | error err => rw [hr] at h; cases h
  | ok pr =>
    rw [hr] at h
    cases h
    exact read_tree_entries_consumed store _ s pr hr

/-- A known type token contains neither a space nor a NUL byte, and
parses back to its type. -/
theorem token_facts (t : ObjectType) :
    32 ∉ t.token ∧ 0 ∉ t.token ∧ ObjectType.tryFrom t.token = .ok t := by
  cases t <;> exact ⟨by decide, by decide, by decide⟩

/-- C10: when the declared header size differs from the content length,
the size read still succeeds and reports the declared size bytes (it
never decompresses or validates the content), while the full-content
read (pretty-print or existence check, either value of `exit_zero`)
fails. -/
theorem c10_size_read_unvalidated (store : Store) (t : ObjectType)
    (sizeB content : List Nat) (ex : Bool) (n : Nat)
    (hs0 : 0 ∉ sizeB) (hn : parse_size sizeB = .ok n)
    (hne : n ≠ content.length) :
    read_object_size (t.token ++ 32 :: (sizeB ++ 0 :: content)) false =
      .ok sizeB ∧
    isError (read_object_pretty store
      (t.token ++ 32 :: (sizeB ++ 0 :: content)) ex) = true := by
  obtain ⟨h32, h0, htf⟩ := token_facts t
  have hhdr : parse_header (t.token ++ 32 :: (sizeB ++ [0])) =
      .ok ⟨t.token, sizeB⟩ := by
    rw [parse_header_canonical t.token _ h32]
    simp
  constructor
  · simp only [read_object_size, bind, Except.bind,
      readUntil0_header t.token sizeB content h0 hs0]
    simp only [List.append_assoc, List.cons_append, List.nil_append,
      List.singleton_append, hhdr, htf, Bool.not_false]
    rfl
  · simp only [read_object_pretty, bind, Except.bind,
      readUntil0_header t.token sizeB content h0 hs0]
    simp only [List.append_assoc, List.cons_append, List.nil_append,
      List.singleton_append, hhdr, htf]
    cases t with
    | tree =>
      cases hr : read_tree_pretty store content with
      | error err => simp [hr, isError]
      | ok pr =>
        obtain ⟨buf, m⟩ := pr
        have hm : m = content.length := read_tree_pretty_consumed store content buf m hr
        subst hm
        simp [hr, hn, hne, isError, pure, Except.pure]
    | blob => simp [hn, hne, isError, pure, Except.pure]
    | commit => simp [hn, hne, isError, pure, Except.pure]
    | tag => simp [hn, hne, isError, pure, Except.pure]

/-- The size read succeeding and the content read failing at a concrete
blob whose header declares size 13 over 6 bytes of content. -/
theorem c10_size_read_unvalidated_witness :
    read_object_size (ObjectType.blob.token ++ 32 :: (ascii "13" ++ 0 :: ascii "Hello!"))
      false = .ok (ascii "13") ∧
    isError (read_object_pretty []
      (ObjectType.blob.token ++ 32 :: (ascii "13" ++ 0 :: ascii "Hello!")) false) = true :=
  c10_size_read_unvalidated [] ObjectType.blob (ascii "13") (ascii "Hello!") false 13
    (by decide) (by decide) (by decide)

/-- `TreeEntry`: one record of a tree object's content,
`<mode> ' ' <name> NUL <20-byte hash>`. -/
structure TreeEntry where
  mode : List Nat
  name : List Nat
  sha : List Nat
  deriving DecidableEq, Repr

/-- The bytes of one tree entry as stored. -/
def encodeTreeEntry (t : TreeEntry) : List Nat :=
  t.mode ++ 32 :: (t.name ++ 0 :: t.sha)

/-- A well-formed stored tree entry: the mode has no space, the name no
NUL, and the hash is exactly 20 bytes. -/
def TreeEntryWf (t : TreeEntry) : Prop :=
  32 ∉ t.mode ∧ 0 ∉ t.name ∧ t.sha.length = 20

instance (t : TreeEntry) : Decidable (TreeEntryWf t) := by
  unfold TreeEntryWf
  infer_instance

/-- A well-formed object store: every key is a 40-character hex hash. -/
def StoreWf (store : Store) : Prop := ∀ p ∈ store, p.1.length = 40

instance (store : Store) : Decidable (StoreWf store) := by
  unfold StoreWf
  infer_instance

/-- A decompressed tree stream that ends in the middle of an entry:
either end-of-stream during the mode (no space, non-empty), or after the
space but with no NUL terminating the name, or after the name's NUL with
fewer than 20 hash bytes left. -/
inductive TruncatedEntry : List Nat → Prop where
  | noSpace (tail : List Nat) : tail ≠ [] → 32 ∉ tail → TruncatedEntry tail
  | noNul (m r : List Nat) : 32 ∉ m → 0 ∉ r → TruncatedEntry (m ++ 32 :: r)
  | shortHash (m nm hb : List Nat) : 32 ∉ m → 0 ∉ nm → hb.length < 20 →
      TruncatedEntry (m ++ 32 :: (nm ++ 0 :: hb))

theorem lookup_none_of_bad_length (key : List Nat) (hk : key.length ≠ 40) :
    ∀ store : Store, StoreWf store → store.lookup key = none := by
  intro store
  induction store with
  | nil => intro _; rfl
  | cons p rest ih =>
    intro hwf
    obtain ⟨k, v⟩ := p
    have hne : (key == k) = false := by
      rw [beq_eq_false_iff_ne]
      intro he
      exact hk (he ▸ hwf (k, v) (List.mem_cons_self _ rest))
    have hrest : StoreWf rest := fun q hq => hwf q (List.mem_cons_of_mem _ hq)
    simp only [List.lookup, hne]
    exact ih hrest

/-- The entry loop fails on a stream that is one truncated entry,
whatever the fuel: the partial hash hex-encodes to fewer than 40
characters, so the referenced-object lookup panics (fewer than 2) or
misses the store. -/
theorem read_tree_entries_truncated (store : Store) (hwf : StoreWf store)
    (tail : List Nat) (ht : TruncatedEntry tail) (fuel : Nat) :
    isError (read_tree_entries store fuel tail) = true := by
  cases fuel with
  | zero => rfl
  | succ fuel =>
    cases ht with
    | noSpace tail hne hnosp =>
      have hru := readUntil_eof 32 tail hnosp
      simp only [read_tree_entries, hru, takeN, hne, if_neg hne]
      simp [readUntil, hexEncode, treeTypeLookup, isError]
    | noNul m r h32m h0r =>
      have hru := readUntil_delim 32 m r h32m
      have hrn := readUntil_eof 0 r h0r
      simp only [read_tree_entries, hru, hrn, takeN]
      simp [hexEncode, treeTypeLookup, isError]
    | shortHash m nm hb h32m h0nm hlen =>
      have hru := readUntil_delim 32 m (nm ++ 0 :: hb) h32m
      have hrn := readUntil_delim 0 nm hb h0nm
      have htk : hb.take 20 = hb := List.take_of_length_le (by omega)
      simp only [read_tree_entries, hru, hrn, takeN, htk]
      by_cases hemp : hb = []
      · subst hemp
        simp [hexEncode, treeTypeLookup, isError]
      · have hlen2 : (hexEncode hb).length = 2 * hb.length := hexEncode_length hb
        have hnb : hb.length ≠ 0 := fun h => hemp (List.length_eq_zero.mp h)
        have hlk := lookup_none_of_bad_length (hexEncode hb) (by omega) store hwf
        have hge : ¬ (hexEncode hb).length < 2 := by omega
        simp [treeTypeLookup, hge, hlk, isError]

theorem read_tree_entries_concat_trunc (store : Store) (hwf : StoreWf store)
    (ts : List TreeEntry) (tail : List Nat) (ht : TruncatedEntry tail) :
    ∀ fuel : Nat, (∀ t ∈ ts, TreeEntryWf t) →
      ((ts.map encodeTreeEntry).flatten ++ tail).length < fuel →
      isError (read_tree_entries store fuel
        ((ts.map encodeTreeEntry).flatten ++ tail)) = true := by
  induction ts with
  | nil =>
    intro fuel _ _
    simpa using read_tree_entries_truncated store hwf tail ht fuel
  | cons t ts ih =>
    intro fuel hts hfuel
    obtain ⟨h32, h0, h20⟩ := hts t (List.mem_cons_self t ts)
    have hstream : (((t :: ts).map encodeTreeEntry).flatten ++ tail) =
        t.mode ++ 32 :: (t.name ++ 0 ::
          (t.sha ++ ((ts.map encodeTreeEntry).flatten ++ tail))) := by
      simp [encodeTreeEntry, List.append_assoc]
    cases fuel with
    | zero => exact absurd hfuel (by omega)
    | succ fuel =>
      rw [hstream]
      have hru1 := readUntil_delim 32 t.mode
        (t.name ++ 0 :: (t.sha ++ ((ts.map encodeTreeEntry).flatten ++ tail))) h32
      have hru2 := readUntil_delim 0 t.name
        (t.sha ++ ((ts.map encodeTreeEntry).flatten ++ tail)) h0
      have hmodne : ¬ (t.mode ++ [32] = []) := by simp
      simp only [read_tree_entries, hru1, hru2, takeN,
        List.take_left' h20, List.drop_left' h20, if_neg hmodne]
      cases hlk : treeTypeLookup store (hexEncode t.sha) with
      | error e => simp [isError]
      | ok tok =>
        have hxlen : ((ts.map encodeTreeEntry).flatten ++ tail).length < fuel := by
          rw [hstream] at hfuel
          simp only [List.length_append, List.length_cons] at hfuel ⊢
          omega
        cases hrec : read_tree_entries store fuel
            ((ts.map encodeTreeEntry).flatten ++ tail) with
        | error e => simp [isError]
        | ok pr =>
          have hih := ih fuel (fun x hx => hts x (List.mem_cons_of_mem t hx)) hxlen
          rw [hrec] at hih
          simp [isError] at hih

/-- C6: pretty-printing a tree whose decompressed stream ends mid-entry
(after complete entries, end-of-stream strikes during the mode, the name
or the 20 hash bytes of the final entry) always fails — the partial hash
hex-encodes to fewer than 40 characters, so its store lookup panics or
misses, and truncation is never treated as a normal end of tree. -/
theorem c6_truncated_tree_fails (store : Store) (ts : List TreeEntry)
    (tail sizeB : List Nat) (ex : Bool)
    (hwf : StoreWf store) (hts : ∀ t ∈ ts, TreeEntryWf t)
    (ht : TruncatedEntry tail) (hs0 : 0 ∉ sizeB) :
    isError (read_object_pretty store
      (ObjectType.tree.token ++ 32 ::
        (sizeB ++ 0 :: ((ts.map encodeTreeEntry).flatten ++ tail))) ex) = true := by
  obtain ⟨h32, h0, htf⟩ := token_facts ObjectType.tree
  have hhdr : parse_header (ObjectType.tree.token ++ 32 :: (sizeB ++ [0])) =
      .ok ⟨ObjectType.tree.token, sizeB⟩ := by
    rw [parse_header_canonical ObjectType.tree.token _ h32]
    simp
  simp only [read_object_pretty, bind, Except.bind,
    readUntil0_header ObjectType.tree.token sizeB _ h0 hs0]
  simp only [List.append_assoc, List.cons_append, List.nil_append,
    List.singleton_append, hhdr, htf]
  have herr := read_tree_entries_concat_trunc store hwf ts tail ht
    (((ts.map encodeTreeEntry).flatten ++ tail).length + 1) hts (by omega)
  cases hr : read_tree_entries store
      (((ts.map encodeTreeEntry).flatten ++ tail).length + 1)
      ((ts.map encodeTreeEntry).flatten ++ tail) with
  | ok pr =>
    rw [hr] at herr
    simp [isError] at herr
  | error e =>
    simp only [read_tree_pretty]
    rw [hr]
    rfl

/-- Truncation failing at a concrete stream `"100644 f"` (a mode and an
unterminated name, no hash bytes) framed as a tree object of declared
size 8. -/
theorem c6_truncated_tree_fails_witness :
    isError (read_object_pretty []
      (ObjectType.tree.token ++ 32 ::
        (ascii "8" ++ 0 :: ((([] : List TreeEntry).map encodeTreeEntry).flatten
          ++ (ascii "100644" ++ 32 :: ascii "f")))) false) = true :=
  c6_truncated_tree_fails [] [] (ascii "100644" ++ 32 :: ascii "f") (ascii "8") false
    (by decide) (by decide)
    (TruncatedEntry.noNul (ascii "100644") (ascii "f") (by decide) (by decide))
    (by decide)

theorem read_tree_entries_render (store : Store) (tokOf : TreeEntry → List Nat)
    (ts : List TreeEntry) :
    ∀ fuel : Nat,
      (∀ t ∈ ts, TreeEntryWf t ∧
        treeTypeLookup store (hexEncode t.sha) = .ok (tokOf t)) →
      ((ts.map encodeTreeEntry).flatten).length < fuel →
      read_tree_entries store fuel ((ts.map encodeTreeEntry).flatten) =
        .ok (ts.map fun t =>
            (t.mode ++ [32]) ++ tokOf t ++ [32] ++ hexEncode t.sha ++ [9] ++ t.name,
          ((ts.map encodeTreeEntry).flatten).length) := by
  induction ts with
  | nil =>
    intro fuel _ hf
    cases fuel with
    | zero => exact absurd hf (by omega)
    | succ fuel => simp [read_tree_entries, readUntil]
  | cons t ts ih =>
    intro fuel h hf
    obtain ⟨⟨h32, h0, h20⟩, hlk⟩ := h t (List.mem_cons_self t ts)
    have hstream : ((t :: ts).map encodeTreeEntry).flatten =
        t.mode ++ 32 :: (t.name ++ 0 ::
          (t.sha ++ (ts.map encodeTreeEntry).flatten)) := by
      simp [encodeTreeEntry, List.append_assoc]
    cases fuel with
    | zero => exact absurd hf (by omega)
    | succ fuel =>
      rw [hstream]
      have hru1 := readUntil_delim 32 t.mode
        (t.name ++ 0 :: (t.sha ++ (ts.map encodeTreeEntry).flatten)) h32
      have hru2 := readUntil_delim 0 t.name
        (t.sha ++ (ts.map encodeTreeEntry).flatten) h0
      have hmodne : ¬ (t.mode ++ [32] = []) := by simp
      have hxlen : ((ts.map encodeTreeEntry).flatten).length < fuel := by
        rw [hstream] at hf
        simp only [List.length_append, List.length_cons] at hf ⊢
        omega
      simp only [read_tree_entries, hru1, hru2, takeN, List.take_left' h20,
        List.drop_left' h20, if_neg hmodne, hlk,
        ih fuel (fun x hx => h x (List.mem_cons_of_mem t hx)) hxlen]
      simp only [List.dropLast_concat, List.map_cons, Except.ok.injEq, Prod.mk.injEq]
      constructor
      · simp [List.append_assoc]
      · simp only [List.length_append, List.length_cons, List.length_flatten,
          List.map_cons, List.sum_cons]
        simp [encodeTreeEntry, h20]
        omega

/-- C5: the tree pretty-printer renders each stored entry as
`"<mode> <type> <hex-hash>\t<name>"` (type looked up in the store by the
entry's hex hash), joining the renderings with `'\n'` in stream order. -/
theorem c5_tree_pretty_renders (store : Store) (tokOf : TreeEntry → List Nat)
    (ts : List TreeEntry)
    (h : ∀ t ∈ ts, TreeEntryWf t ∧
      treeTypeLookup store (hexEncode t.sha) = .ok (tokOf t)) :
    read_tree_pretty store ((ts.map encodeTreeEntry).flatten) =
      .ok (List.intercalate [10] (ts.map fun t =>
          (t.mode ++ [32]) ++ tokOf t ++ [32] ++ hexEncode t.sha ++ [9] ++ t.name),
        ((ts.map encodeTreeEntry).flatten).length) := by
  unfold read_tree_pretty
  rw [read_tree_entries_render store tokOf ts _ h (by omega)]

/-- The single-entry tree over the `"Hello, World!"` blob. -/
def c5entry : TreeEntry :=
  { mode := ascii "100644", name := ascii "file.txt", sha := sha1 helloBlobObject }

/-- A store holding just that blob under its hex hash. -/
def c5store : Store := [(hexEncode (sha1 helloBlobObject), helloBlobObject)]

/-- The concrete scenario: the one-entry tree renders exactly as
`"100644 blob b45ef6fec89518d314f546fd6c3025367b721684\tfile.txt"`. -/
theorem c5_tree_pretty_renders_witness :
    read_tree_pretty c5store (([c5entry].map encodeTreeEntry).flatten) =
      .ok (ascii "100644 blob b45ef6fec89518d314f546fd6c3025367b721684\tfile.txt", 36) := by
  have h := c5_tree_pretty_renders c5store (fun _ => ascii "blob") [c5entry] (by decide)
  exact h.trans (by decide)

/-! ## The map ordering of the reference resolver -/

theorem lexBool_trans {α : Type} (lt : α → α → Bool)
    (htr : ∀ x y z, lt x y = true → lt y z = true → lt x z = true)
    (heq : ∀ x y, lt x y = false → lt y x = false → x = y) :
    ∀ a b c, lexBool lt a b = true → lexBool lt b c = true →
      lexBool lt a c = true := by
  intro a
  induction a with
  | nil =>
    intro b c hab hbc
    cases b with
    | nil => cases hab
    | cons bh bt =>
      cases c with
      | nil => cases hbc
      | cons ch ct => rfl
  | cons ah at' ih =>
    intro b c hab hbc
    cases b with
    | nil => cases hab
    | cons bh bt =>
      cases c with
      | nil => cases hbc
      | cons ch ct =>
        simp only [lexBool] at hab hbc ⊢
        by_cases h1 : lt ah bh = true
        · by_cases h2 : lt bh ch = true
          · simp [htr _ _ _ h1 h2]
          · have h2' : lt bh ch = false := by simpa using h2
            by_cases h3 : lt ch bh = true
            · simp [h2', h3] at hbc
            · have h3' : lt ch bh = false := by simpa using h3
              have hbc2 : bh = ch := heq _ _ h2' h3'
              subst hbc2
              simp [h1]
        · have h1' : lt ah bh = false := by simpa using h1
          by_cases h4 : lt bh ah = true
          · simp [h1', h4] at hab
          · have h4' : lt bh ah = false := by simpa using h4
            have hab2 : ah = bh := heq _ _ h1' h4'
            subst hab2
            by_cases h2 : lt ah ch = true
            · simp [h2]
            · have h2' : lt ah ch = false := by simpa using h2
              by_cases h3 : lt ch ah = true
              · simp [h2', h3] at hbc
              · have h3' : lt ch ah = false := by simpa using h3
                have hac : ah = ch := heq _ _ h2' h3'
                subst hac
                simp only [h2', h3', if_false]
                simp only [h1', if_false] at hab hbc
                exact ih bt ct hab hbc

theorem lexBool_eq_of_incomp {α : Type} (lt : α → α → Bool)
    (heq : ∀ x y, lt x y = false → lt y x = false → x = y) :
    ∀ a b, lexBool lt a b = false → lexBool lt b a = false → a = b := by
  intro a
  induction a with
  | nil =>
    intro b hab _
    cases b with
    | nil => rfl
    | cons bh bt => cases hab
  | cons ah at' ih =>
    intro b hab hba
    cases b with
    | nil => cases hba
    | cons bh bt =>
      simp only [lexBool] at hab hba
      by_cases h1 : lt ah bh = true
      · simp [h1] at hab
      · have h1' : lt ah bh = false := by simpa using h1
        by_cases h2 : lt bh ah = true
        · simp [h1', h2] at hba
        · have h2' : lt bh ah = false := by simpa using h2
          have hh : ah = bh := heq _ _ h1' h2'
          subst hh
          simp only [h1', if_false] at hab hba
          rw [ih bt hab hba]

theorem bytesLt_trans (a b c : List Nat) (hab : bytesLt a b = true)
    (hbc : bytesLt b c = true) : bytesLt a c = true :=
  lexBool_trans _ (fun _ _ _ h1 h2 => by simp at h1 h2 ⊢; omega)
    (fun _ _ h1 h2 => by simp at h1 h2; omega) a b c hab hbc

theorem bytesLt_eq_of_incomp (a b : List Nat) (hab : bytesLt a b = false)
    (hba : bytesLt b a = false) : a = b :=
  lexBool_eq_of_incomp _ (fun _ _ h1 h2 => by simp at h1 h2; omega) a b hab hba

theorem compsLt_trans (a b c : List (List Nat)) (hab : compsLt a b = true)
    (hbc : compsLt b c = true) : compsLt a c = true :=
  lexBool_trans _ bytesLt_trans bytesLt_eq_of_incomp a b c hab hbc

theorem pathLt_trans (a b c : String) (hab : pathLt a b = true)
    (hbc : pathLt b c = true) : pathLt a c = true :=
  compsLt_trans _ _ _ hab hbc

/-- The strict key order between collected entries. -/
def RefRel (a b : String × List Nat) : Prop := pathLt a.1 b.1 = true

theorem mem_insertRef (k : String) (v : List Nat) :
    ∀ (m : RefMap) (x : String × List Nat), x ∈ insertRef k v m →
      x.1 = k ∨ x.1 ∈ m.map Prod.fst := by
  intro m
  induction m with
  | nil =>
    intro x hx
    simp only [insertRef, List.mem_singleton] at hx
    subst hx
    exact Or.inl rfl
  | cons p rest ih =>
    intro x hx
    obtain ⟨k', v'⟩ := p
    simp only [insertRef] at hx
    simp only [List.map_cons, List.mem_cons]
    by_cases h1 : pathLt k k' = true
    · rw [if_pos h1] at hx
      rcases List.mem_cons.mp hx with rfl | hx2
      · exact Or.inl rfl
      rcases List.mem_cons.mp hx2 with rfl | hx3
      · exact Or.inr (Or.inl rfl)
      · exact Or.inr (Or.inr (List.mem_map_of_mem Prod.fst hx3))
    · rw [if_neg h1] at hx
      by_cases h2 : pathLt k' k = true
      · rw [if_pos h2] at hx
        rcases List.mem_cons.mp hx with rfl | hx2
        · exact Or.inr (Or.inl rfl)
        · rcases ih x hx2 with h | h
          · exact Or.inl h
          · exact Or.inr (Or.inr h)
      · rw [if_neg h2] at hx
        rcases List.mem_cons.mp hx with rfl | hx2
        · exact Or.inr (Or.inl rfl)
        · exact Or.inr (Or.inr (List.mem_map_of_mem Prod.fst hx2))

theorem pairwise_insertRef (k : String) (v : List Nat) :
    ∀ m : RefMap, List.Pairwise RefRel m →
      List.Pairwise RefRel (insertRef k v m) := by
  intro m
  induction m with
  | nil =>
    intro _
    simp [insertRef, List.pairwise_singleton]
  | cons p rest ih =>
    intro hm
    obtain ⟨k', v'⟩ := p
    rw [List.pairwise_cons] at hm
    obtain ⟨hhead, htail⟩ := hm
    simp only [insertRef]
    by_cases h1 : pathLt k k' = true
    · rw [if_pos h1]
      refine List.Pairwise.cons ?_ (List.Pairwise.cons hhead htail)
      intro x hx
      rcases List.mem_cons.mp hx with rfl | hx2
      · exact h1
      · exact pathLt_trans k k' x.1 h1 (hhead x hx2)
    · rw [if_neg h1]
      by_cases h2 : pathLt k' k = true
      · rw [if_pos h2]
        refine List.Pairwise.cons ?_ (ih htail)
        intro x hx
        rcases mem_insertRef k v rest x hx with hxk | hxm
        · rw [RefRel, hxk]
          exact h2
        · rcases List.mem_map.mp hxm with ⟨y, hy, hxy⟩
          rw [RefRel, ← hxy]
          exact hhead y hy
      · rw [if_neg h2]
        exact List.Pairwise.cons (fun x hx => hhead x hx) htail

theorem add_ref_pairwise (k : String) (c : List Nat) (m m' : RefMap)
    (hm : List.Pairwise RefRel m) (h : add_ref k c m = .ok m') :
    List.Pairwise RefRel m' := by
  unfold add_ref at h
  split at h
  · cases h
  · cases h
    exact pairwise_insertRef k _ m hm

theorem read_refs_pairwise (repo : List (String × List Nat)) (subdir : String)
    (m m' : RefMap) (hm : List.Pairwise RefRel m)
    (h : read_refs repo subdir m = .ok m') : List.Pairwise RefRel m' := by
  unfold read_refs at h
  revert m
  induction repo.filter (fun pc => underDir subdir pc.1) with
  | nil =>
    intro m hm h
    cases h
    exact hm
  | cons p rest ih =>
    intro m hm h
    simp only [List.foldlM_cons, bind, Except.bind] at h
    cases ha : add_ref p.1 p.2 m with
    | error e => rw [ha] at h; cases h
    | ok mi =>
      rw [ha] at h
      exact ih mi (add_ref_pairwise p.1 p.2 m mi hm ha) h

theorem add_ref_if_exists_pairwise (repo : List (String × List Nat)) (p : String)
    (m m' : RefMap) (hm : List.Pairwise RefRel m)
    (h : add_ref_if_exists repo p m = .ok m') : List.Pairwise RefRel m' := by
  unfold add_ref_if_exists at h
  split at h
  · cases h
    exact hm
  · exact add_ref_pairwise _ _ _ _ hm h

theorem read_head_pairwise (repo : List (String × List Nat))
    (hc : Option (List Nat)) (m m' : RefMap) (hm : List.Pairwise RefRel m)
    (h : read_head repo hc m = .ok m') : List.Pairwise RefRel m' := by
  unfold read_head at h
  cases hc with
  | none => cases h
  | some c =>
    simp only at h
    split at h
    · cases h
      exact pairwise_insertRef _ _ _ hm
    · split at h
      · cases h
      · split at h
        · cases h
        · cases h
          exact pairwise_insertRef _ _ _ hm

theorem except_bind_ok {α β : Type} (a : α) (f : α → Except GitError β) :
    Except.bind (Except.ok a) f = f a := rfl

/-- Every successful ref collection is sorted by the map's key order
(`PathBuf` componentwise comparison). -/
theorem collect_refs_pairwise (repo : List (String × List Nat))
    (hc : Option (List Nat)) (heads tags head : Bool) (out : RefMap)
    (h : collect_refs repo hc heads tags head = .ok out) :
    List.Pairwise RefRel out := by
  unfold collect_refs at h
  cases h1 : (if heads then read_refs repo "refs/heads" [] else .ok []) with
  | error e => rw [h1] at h; cases h
  | ok m1 =>
    rw [h1, except_bind_ok] at h
    have hp1 : List.Pairwise RefRel m1 := by
      cases heads with
      | true => exact read_refs_pairwise _ _ _ _ List.Pairwise.nil h1
      | false => cases h1; exact List.Pairwise.nil
    cases h2 : (if tags then read_refs repo "refs/tags" m1 else .ok m1) with
    | error e => rw [h2] at h; cases h
    | ok m2 =>
      rw [h2, except_bind_ok] at h
      have hp2 : List.Pairwise RefRel m2 := by
        cases tags with
        | true => exact read_refs_pairwise _ _ _ _ hp1 h2
        | false => cases h2; exact hp1
      cases h3 : (if !heads && !tags then
          Except.bind (read_refs repo "refs/heads" m2) fun m =>
          Except.bind (read_refs repo "refs/tags" m) fun m =>
          Except.bind (read_refs repo "refs/remotes" m) fun m =>
          add_ref_if_exists repo "refs/stash" m
        else .ok m2) with
      | error e => rw [h3] at h; cases h
      | ok m3 =>
        rw [h3, except_bind_ok] at h
        have hp3 : List.Pairwise RefRel m3 := by
          by_cases hb : (!heads && !tags) = true
          · rw [if_pos hb] at h3
            cases ha : read_refs repo "refs/heads" m2 with
            | error e => rw [ha] at h3; cases h3
            | ok ma =>
              rw [ha, except_bind_ok] at h3
              have hpa := read_refs_pairwise _ _ _ _ hp2 ha
              cases hb2 : read_refs repo "refs/tags" ma with
              | error e => rw [hb2] at h3; cases h3
              | ok mb =>
                rw [hb2, except_bind_ok] at h3
                have hpb := read_refs_pairwise _ _ _ _ hpa hb2
                cases hc2 : read_refs repo "refs/remotes" mb with
                | error e => rw [hc2] at h3; cases h3
                | ok mc =>
                  rw [hc2, except_bind_ok] at h3
                  have hpc := read_refs_pairwise _ _ _ _ hpb hc2
                  exact add_ref_if_exists_pairwise _ _ _ _ hpc h3
          · rw [if_neg hb] at h3
            cases h3
            exact hp2
        cases head with
        | true => exact read_head_pairwise _ _ _ _ hp3 h
        | false => cases h; exact hp3

/-- The ref layout of the specification's scenario: four leaf files and
`HEAD` pointing at `refs/heads/main`. -/
def c8repo : List (String × List Nat) :=
  [("refs/heads/main", ascii "aabbccddeeff00112233445566778899aabbccdd"),
   ("refs/tags/v1.0", ascii "112233445566778899aabbccddeeff0011223344"),
   ("refs/remotes/origin", ascii "33445566778899aabbccddeeff00112233445566"),
   ("refs/stash", ascii "5566778899aabbccddeeff001122334455667788")]

/-- Two head refs whose `PathBuf` order and flat string order disagree:
`'.'` (0x2E) sorts below `'/'` (0x2F) bytewise, but `"a"` sorts below
`"a.x"` componentwise. -/
def c8repo2 : List (String × List Nat) :=
  [("refs/heads/a.x", ascii "aabbccddeeff00112233445566778899aabbccdd"),
   ("refs/heads/a/y", ascii "112233445566778899aabbccddeeff0011223344")]

/-- C8, counterexample: the collection is ordered by `BTreeMap<PathBuf>`,
which compares path components, not the flat path string: with refs
`refs/heads/a.x` and `refs/heads/a/y`, the output lists `refs/heads/a/y`
first although the flat path key `"refs/heads/a.x"` is lexicographically
smaller — the output is not sorted lexicographically by path key. -/
theorem c8_sort_counterexample :
    collect_refs c8repo2 none true false false = .ok
      [("refs/heads/a/y", ascii "112233445566778899aabbccddeeff0011223344"),
       ("refs/heads/a.x", ascii "aabbccddeeff00112233445566778899aabbccdd")] ∧
    pathStrLt "refs/heads/a.x" "refs/heads/a/y" = true := by decide

/-- C8, amended: ref collection output is sorted by `PathBuf`'s
componentwise path order (`"HEAD"` still sorts before every `"refs/..."`
path); on the specification's scenario the five entries come out as
`HEAD, refs/heads/main, refs/remotes/origin, refs/stash, refs/tags/v1.0`
with `HEAD` reusing `refs/heads/main`'s hash. -/
theorem c8_refs_scenario_and_sorted :
    collect_refs c8repo (some (ascii "ref: refs/heads/main\n")) false false true = .ok
      [("HEAD", ascii "aabbccddeeff00112233445566778899aabbccdd"),
       ("refs/heads/main", ascii "aabbccddeeff00112233445566778899aabbccdd"),
       ("refs/remotes/origin", ascii "33445566778899aabbccddeeff00112233445566"),
       ("refs/stash", ascii "5566778899aabbccddeeff001122334455667788"),
       ("refs/tags/v1.0", ascii "112233445566778899aabbccddeeff0011223344")] ∧
    ∀ (repo : List (String × List Nat)) (hc : Option (List Nat))
      (heads tags head : Bool) (out : RefMap),
      collect_refs repo hc heads tags head = .ok out →
        List.Pairwise RefRel out :=
  ⟨by decide, collect_refs_pairwise⟩
